import Mathlib

/-!
Verification of the partition-loading and schema-reconciliation core of
`columnq/src/table/arrow_ipc_file.rs` (`to_mem_table`).

The source function decodes every partition of a table into an embedded
schema plus a sequence of record batches, resolves the table schema
(user override, or merge over the non-empty partitions' embedded
schemas), and hands the resolved schema together with the per-partition
batch lists to the query engine's in-memory table constructor.

Shallow embedding conventions:
* the partition enumeration/decode macro `partitions_from_table_source!`,
  the error type `ColumnQError`, the arrow schema-merge primitive
  `Schema::try_merge` and the datafusion constructor `MemTable::try_new`
  live outside the provided source file; they are modelled from the
  specification (doc comments say `Modelled from the spec:`);
* the body of `to_mem_table` (match on the override, the in-place `take`
  of each non-empty partition's schema slot, the flat-map building the
  inference set, the map dropping the per-partition schemas) is
  translated line by line from the source;
* each partition's byte source is represented by its decode outcome:
  either a decode-error message or the pair (embedded schema, batches).
-/

set_option autoImplicit false

namespace ArrowIpcFile

/-- Primitive column types. The spec treats field types abstractly;
incompatibility of two types is inequality. -/
inductive DataType where
  | int64
  | float64
  | utf8
  | boolean
  deriving DecidableEq, Repr

/-- A named, typed field of a schema. -/
structure Field where
  name : String
  dtype : DataType
  deriving DecidableEq, Repr

/-- A schema: an ordered sequence of named, typed fields. -/
structure Schema where
  fields : List Field
  deriving DecidableEq, Repr

/-- A record batch: an immutable chunk of rows conforming to a schema.
Row contents beyond the count are irrelevant to the loader. -/
structure RecordBatch where
  schema : Schema
  rows : Nat
  deriving DecidableEq, Repr

/-- The external representation of a user-supplied schema override
(`TableSchema` in the source, converted with `.into()`). -/
structure TableSchema where
  fields : List Field
  deriving DecidableEq, Repr

/-- Conversion of the external override representation into a schema
(the `s.into()` call in the source). -/
def TableSchema.into (s : TableSchema) : Schema :=
  ⟨s.fields⟩

/-- A table source: its registered name and the optional user-supplied
schema override (`t.name`, `t.schema` in the source). -/
structure TableSource where
  name : String
  schema : Option TableSchema
  deriving DecidableEq, Repr

/-- Modelled from the spec: the error type `ColumnQError` (not under
`src/`). Every failure of the load identifies the table by name:
a partition decode failure, a schema-merge conflict (carrying the
conflicting field's name), or a rejection by the table constructor. -/
inductive ColumnQError where
  | decodeError (table : String) (msg : String)
  | mergeError (table : String) (field : String)
  | tableError (table : String) (msg : String)
  deriving DecidableEq, Repr

/-- The table name carried by a load error. -/
def ColumnQError.table : ColumnQError → String
  | .decodeError t _ => t
  | .mergeError t _ => t
  | .tableError t _ => t

/-- The final in-memory table: one resolved schema and a
partition-major, batch-minor sequence of record batches. -/
structure MemTable where
  schema : Schema
  partitions : List (List RecordBatch)
  deriving DecidableEq, Repr

/-- First field of a schema list lookup by name (mirrors the by-name
search performed by the merge primitive). -/
def findField (n : String) : List Field → Option Field
  | [] => none
  | g :: gs => if g.name = n then some g else findField n gs

/-- Modelled from the spec: merging one field into the accumulated
union — fields are unioned by name; a homonymous field with an
incompatible type is a conflict naming that field. -/
def mergeInto (acc : List Field) (f : Field) : Except String (List Field) :=
  match findField f.name acc with
  | some g => if g.dtype = f.dtype then .ok acc else .error f.name
  | none => .ok (acc ++ [f])

/-- Merging a whole field list into the accumulated union. -/
def mergeFields (acc : List Field) : List Field → Except String (List Field)
  | [] => .ok acc
  | f :: fs =>
    match mergeInto acc f with
    | .error e => .error e
    | .ok acc2 => mergeFields acc2 fs

/-- Merging a sequence of schemas into the accumulated union. -/
def mergeAll (acc : List Field) : List Schema → Except String (List Field)
  | [] => .ok acc
  | s :: ss =>
    match mergeFields acc s.fields with
    | .error e => .error e
    | .ok acc2 => mergeAll acc2 ss

/-- Modelled from the spec: the schema-merge primitive
(`arrow::datatypes::Schema::try_merge`, an external collaborator):
given a sequence of schemas, union their fields by name, failing with
the conflicting field's name when the same name carries incompatible
types; the empty sequence merges to the empty-field schema. -/
def Schema.try_merge (ss : List Schema) : Except String Schema :=
  match mergeAll [] ss with
  | .error e => .error e
  | .ok fs => .ok ⟨fs⟩

/-- Modelled from the spec: `partitions_from_table_source!` (a macro of
this repository, not under `src/`): enumerate the table's partitions in
order, decode each one, and fail the whole load with a decode error
naming the table as soon as any partition fails; on success return the
decoded `(Some schema, batches)` pairs in enumeration order. -/
def partitions_from_table_source (table : String) :
    List (Except String (Schema × List RecordBatch)) →
    Except ColumnQError (List (Option Schema × List RecordBatch))
  | [] => .ok []
  | .error e :: _ => .error (.decodeError table e)
  | .ok (s, bs) :: rest =>
    match partitions_from_table_source table rest with
    | .error e => .error e
    | .ok tl => .ok ((some s, bs) :: tl)

/-- One step of the schema-inference pass (source lines 36-39): for a
non-empty partition the schema slot is taken (contributed to the
inference set and replaced by `none` in place); an empty partition
contributes nothing and is left untouched. The first component is the
contribution, the second the partition after the pass. -/
def takeStep (v : Option Schema × List RecordBatch) :
    Option Schema × (Option Schema × List RecordBatch) :=
  if v.2.isEmpty then (none, v) else (v.1, (none, v.2))

/-- The schema-inference pass over all partitions: the inference set
(schemas of the non-empty partitions, in order) and the updated
partition list. -/
def takeSchemas (ps : List (Option Schema × List RecordBatch)) :
    List Schema × List (Option Schema × List RecordBatch) :=
  ((ps.map takeStep).flatMap (fun p => p.1.toList),
   (ps.map takeStep).map (fun p => p.2))

/-- Schema inference (source lines 33-41): merge the embedded schemas
of the non-empty partitions; zero-batch partitions are excluded. -/
def inferredSchema (ps : List (Option Schema × List RecordBatch)) :
    Except String Schema :=
  Schema.try_merge (takeSchemas ps).1

/-- The partition-major batch lists handed to the table constructor
(source lines 46-49): the override path maps the untouched partition
list, the inference path maps the list after the in-place `take` pass;
either way the per-partition schema is dropped. -/
def assembled_partitions (t : TableSource)
    (sap : List (Option Schema × List RecordBatch)) :
    List (List RecordBatch) :=
  match t.schema with
  | some _ => sap.map (fun v => v.2)
  | none => (takeSchemas sap).2.map (fun v => v.2)

/-- Modelled from the spec: the table constructor
(`datafusion::datasource::MemTable::try_new`, an external
collaborator): it may reject a schema/batches pairing, e.g. on a
column-count mismatch between a batch's schema and the table schema. -/
def MemTable.try_new (schema : Schema)
    (partitions : List (List RecordBatch)) : Except String MemTable :=
  if partitions.all
      (fun p => p.all (fun b => b.schema.fields.length = schema.fields.length)) then
    .ok ⟨schema, partitions⟩
  else
    .error "Mismatch between schema and batches"

/-- The `?` operator of the source: propagate the value, converting the
error into a `ColumnQError` (the `From` conversion). -/
def mapErr {α : Type} (f : String → ColumnQError) :
    Except String α → Except ColumnQError α
  | .ok a => .ok a
  | .error e => .error (f e)

/-- Schema resolution and table construction after all partitions have
been decoded (source lines 31-50): the override is used verbatim when
present, otherwise the schema is inferred; either way the partition
batch lists are handed to the table constructor, and merge and
construction failures are tagged with the table's name. -/
def resolve_and_build (t : TableSource)
    (sap : List (Option Schema × List RecordBatch)) :
    Except ColumnQError MemTable :=
  match t.schema with
  | some s =>
    mapErr (ColumnQError.tableError t.name)
      (MemTable.try_new s.into (assembled_partitions t sap))
  | none =>
    Except.bind (mapErr (ColumnQError.mergeError t.name) (inferredSchema sap))
      (fun sch =>
        mapErr (ColumnQError.tableError t.name)
          (MemTable.try_new sch (assembled_partitions t sap)))

/-- The load operation (`to_mem_table`, source lines 11-51): decode all
partitions, resolve the schema (override verbatim, else inference over
the non-empty partitions), and construct the in-memory table. -/
def to_mem_table (t : TableSource)
    (inputs : List (Except String (Schema × List RecordBatch))) :
    Except ColumnQError MemTable :=
  Except.bind (partitions_from_table_source t.name inputs)
    (resolve_and_build t)

/-- Replacing every successfully decoded partition's embedded schema
(used to state that the override path never consults them). -/
def mapSchemas (f : Schema → Schema) :
    List (Except String (Schema × List RecordBatch)) →
    List (Except String (Schema × List RecordBatch)) :=
  List.map (fun r =>
    match r with
    | .ok (s, bs) => .ok (f s, bs)
    | .error e => .error e)

/-- Field names of a list are pairwise distinct. -/
def NamesNodup (l : List Field) : Prop :=
  (l.map Field.name).Nodup

theorem takeStep_snd_snd (v : Option Schema × List RecordBatch) :
    (takeStep v).2.2 = v.2 := by
  unfold takeStep
  split <;> rfl

theorem takeStep_of_empty (v : Option Schema × List RecordBatch)
    (h : v.2 = []) : takeStep v = (none, v) := by
  unfold takeStep
  rw [h]
  rfl

theorem pfts_map_ok (n : String)
    (ds : List (Schema × List RecordBatch)) :
    partitions_from_table_source n (ds.map Except.ok) =
      .ok (ds.map (fun d => (some d.1, d.2))) := by
  induction ds with
  | nil => rfl
  | cons d rest ih =>
    obtain ⟨s, bs⟩ := d
    simp [partitions_from_table_source, ih]

theorem pfts_error_shape (n : String)
    (inputs : List (Except String (Schema × List RecordBatch)))
    (c : ColumnQError)
    (h : partitions_from_table_source n inputs = .error c) :
    ∃ msg, c = .decodeError n msg := by
  induction inputs with
  | nil => exact absurd h (by simp [partitions_from_table_source])
  | cons r rest ih =>
    match r with
    | .error e =>
      refine ⟨e, ?_⟩
      simpa [partitions_from_table_source] using h.symm
    | .ok (s, bs) =>
      unfold partitions_from_table_source at h
      revert h
      split
      · rename_i e heq
        intro h
        cases Except.error.inj h
        exact ih heq
      · intro h
        exact absurd h (by simp)

theorem pfts_error_mem (n : String)
    (inputs : List (Except String (Schema × List RecordBatch)))
    (e : String) (hm : Except.error e ∈ inputs) :
    ∃ msg, partitions_from_table_source n inputs =
      .error (.decodeError n msg) := by
  induction inputs with
  | nil => cases hm
  | cons r rest ih =>
    match r with
    | .error e2 => exact ⟨e2, rfl⟩
    | .ok (s, bs) =>
      have hm2 : Except.error e ∈ rest := by
        rcases List.mem_cons.mp hm with h | h
        · cases h
        · exact h
      obtain ⟨msg, hmsg⟩ := ih hm2
      refine ⟨msg, ?_⟩
      unfold partitions_from_table_source
      rw [hmsg]

theorem try_new_ok (s : Schema) (ps : List (List RecordBatch))
    (m : MemTable) (h : MemTable.try_new s ps = .ok m) :
    m = ⟨s, ps⟩ := by
  unfold MemTable.try_new at h
  revert h
  split
  · intro h
    exact (Except.ok.inj h).symm
  · intro h
    exact absurd h (by simp)

theorem assembled_eq (t : TableSource)
    (sap : List (Option Schema × List RecordBatch)) :
    assembled_partitions t sap = sap.map (fun v => v.2) := by
  unfold assembled_partitions
  split
  · rfl
  · unfold takeSchemas
    simp [takeStep_snd_snd]

theorem mapErr_ok {α : Type} (f : String → ColumnQError)
    (x : Except String α) (a : α) :
    mapErr f x = .ok a ↔ x = .ok a := by
  cases x <;> simp [mapErr]

theorem mapErr_error {α : Type} (f : String → ColumnQError)
    (x : Except String α) (c : ColumnQError) :
    mapErr f x = .error c ↔ ∃ e, x = .error e ∧ c = f e := by
  cases x <;> simp [mapErr, eq_comm]

theorem except_bind_ok {ε α β : Type} (a : α) (f : α → Except ε β) :
    Except.bind (Except.ok a) f = f a := rfl

theorem except_bind_error {ε α β : Type} (e : ε) (f : α → Except ε β) :
    Except.bind (Except.error e : Except ε α) f = .error e := rfl

theorem except_bind_eq_ok {ε α β : Type} (x : Except ε α)
    (f : α → Except ε β) (b : β)
    (h : Except.bind x f = .ok b) : ∃ a, x = .ok a ∧ f a = .ok b := by
  cases x with
  | ok a => exact ⟨a, rfl, h⟩
  | error e => exact absurd h (by simp [except_bind_error])

theorem to_mem_table_ok (t : TableSource)
    (ds : List (Schema × List RecordBatch)) :
    to_mem_table t (ds.map Except.ok) =
      resolve_and_build t (ds.map (fun d => (some d.1, d.2))) := by
  unfold to_mem_table
  rw [pfts_map_ok]
  rfl

theorem resolve_ok_partitions (t : TableSource)
    (sap : List (Option Schema × List RecordBatch)) (tbl : MemTable)
    (h : resolve_and_build t sap = .ok tbl) :
    tbl.partitions = sap.map (fun v => v.2) := by
  unfold resolve_and_build at h
  have hparts : ∀ sch, MemTable.try_new sch (assembled_partitions t sap) = .ok tbl →
      tbl.partitions = sap.map (fun v => v.2) := by
    intro sch htn
    rw [try_new_ok _ _ _ htn, assembled_eq]
  revert h
  split
  · intro h
    exact hparts _ ((mapErr_ok _ _ _).mp h)
  · intro h
    obtain ⟨sch, _, h2⟩ := except_bind_eq_ok _ _ _ h
    exact hparts _ ((mapErr_ok _ _ _).mp h2)

theorem load_ok_shape (t : TableSource)
    (ds : List (Schema × List RecordBatch)) (tbl : MemTable)
    (h : to_mem_table t (ds.map Except.ok) = .ok tbl) :
    tbl.partitions = ds.map (fun d => d.2) := by
  rw [to_mem_table_ok] at h
  have := resolve_ok_partitions _ _ _ h
  simpa using this

theorem findField_some (n : String) (l : List Field) (g : Field)
    (h : findField n l = some g) : g ∈ l ∧ g.name = n := by
  induction l with
  | nil => cases h
  | cons a l ih =>
    unfold findField at h
    by_cases ha : a.name = n
    · rw [if_pos ha] at h
      cases Option.some.inj h
      exact ⟨List.mem_cons_self _ _, ha⟩
    · rw [if_neg ha] at h
      obtain ⟨hm, hn⟩ := ih h
      exact ⟨List.mem_cons_of_mem a hm, hn⟩

theorem findField_none (n : String) (l : List Field)
    (h : findField n l = none) : ∀ g ∈ l, g.name ≠ n := by
  induction l with
  | nil => intro g hg; cases hg
  | cons a l ih =>
    unfold findField at h
    by_cases ha : a.name = n
    · rw [if_pos ha] at h
      cases h
    · rw [if_neg ha] at h
      intro g hg
      rcases List.mem_cons.mp hg with hga | hgl
      · rw [hga]; exact ha
      · exact ih h g hgl

theorem findField_eq_none (n : String) (l : List Field)
    (h : ∀ g ∈ l, g.name ≠ n) : findField n l = none := by
  induction l with
  | nil => rfl
  | cons a l ih =>
    unfold findField
    rw [if_neg (h a (List.mem_cons_self a l))]
    exact ih (fun g hg => h g (List.mem_cons_of_mem a hg))

theorem findField_mem_nodup (l : List Field) (f : Field)
    (hn : NamesNodup l) (hm : f ∈ l) : findField f.name l = some f := by
  induction l with
  | nil => cases hm
  | cons a l ih =>
    unfold NamesNodup at hn
    rw [List.map_cons, List.nodup_cons] at hn
    unfold findField
    rcases List.mem_cons.mp hm with hfa | hfl
    · rw [hfa, if_pos rfl]
    · rw [if_neg ?_]
      · exact ih hn.2 hfl
      · intro ha
        exact hn.1 (ha ▸ List.mem_map_of_mem Field.name hfl)

theorem mergeInto_subset (acc acc2 : List Field) (f : Field)
    (h : mergeInto acc f = .ok acc2) : ∀ g ∈ acc, g ∈ acc2 := by
  unfold mergeInto at h
  revert h
  split
  · split
    · intro h
      cases Except.ok.inj h
      exact fun g hg => hg
    · intro h
      cases h
  · intro h
    cases Except.ok.inj h
    exact fun g hg => List.mem_append_left _ hg

theorem mergeFields_subset (fs : List Field) :
    ∀ acc acc2, mergeFields acc fs = .ok acc2 → ∀ g ∈ acc, g ∈ acc2 := by
  induction fs with
  | nil =>
    intro acc acc2 h
    cases Except.ok.inj h
    exact fun g hg => hg
  | cons f fs ih =>
    intro acc acc2 h
    unfold mergeFields at h
    revert h
    split
    · intro h
      cases h
    · rename_i acc1 heq
      intro h g hg
      exact ih acc1 acc2 h g (mergeInto_subset acc acc1 f heq g hg)

theorem mergeAll_subset (ss : List Schema) :
    ∀ acc out, mergeAll acc ss = .ok out → ∀ g ∈ acc, g ∈ out := by
  induction ss with
  | nil =>
    intro acc out h
    cases Except.ok.inj h
    exact fun g hg => hg
  | cons s ss ih =>
    intro acc out h
    unfold mergeAll at h
    revert h
    split
    · intro h
      cases h
    · rename_i acc1 heq
      intro h g hg
      exact ih acc1 out h g (mergeFields_subset s.fields acc acc1 heq g hg)

theorem mergeInto_rep (acc acc2 : List Field) (f : Field)
    (h : mergeInto acc f = .ok acc2) :
    ∃ g ∈ acc2, g.name = f.name ∧ g.dtype = f.dtype := by
  unfold mergeInto at h
  revert h
  split
  · rename_i g hfind
    split
    · rename_i hdt
      intro h
      cases Except.ok.inj h
      obtain ⟨hmem, hname⟩ := findField_some _ _ _ hfind
      exact ⟨g, hmem, hname, hdt⟩
    · intro h
      cases h
  · intro h
    cases Except.ok.inj h
    exact ⟨f, List.mem_append_right _ (List.mem_singleton_self f), rfl, rfl⟩

theorem mergeFields_rep (fs : List Field) :
    ∀ acc acc2, mergeFields acc fs = .ok acc2 →
      ∀ f ∈ fs, ∃ g ∈ acc2, g.name = f.name ∧ g.dtype = f.dtype := by
  induction fs with
  | nil =>
    intro acc acc2 _ f hf
    cases hf
  | cons f0 fs ih =>
    intro acc acc2 h f hf
    unfold mergeFields at h
    revert h
    split
    · intro h
      cases h
    · rename_i acc1 heq
      intro h
      rcases List.mem_cons.mp hf with hf0 | hfl
      · subst hf0
        obtain ⟨g, hg, hgn, hgd⟩ := mergeInto_rep acc acc1 f heq
        exact ⟨g, mergeFields_subset fs acc1 acc2 h g hg, hgn, hgd⟩
      · exact ih acc1 acc2 h f hfl

theorem mergeAll_rep (ss : List Schema) :
    ∀ acc out, mergeAll acc ss = .ok out →
      ∀ s ∈ ss, ∀ f ∈ s.fields,
        ∃ g ∈ out, g.name = f.name ∧ g.dtype = f.dtype := by
  induction ss with
  | nil =>
    intro acc out _ s hs
    cases hs
  | cons s0 ss ih =>
    intro acc out h s hs f hf
    unfold mergeAll at h
    revert h
    split
    · intro h
      cases h
    · rename_i acc1 heq
      intro h
      rcases List.mem_cons.mp hs with hs0 | hsl
      · subst hs0
        obtain ⟨g, hg, hgn, hgd⟩ := mergeFields_rep s.fields acc acc1 heq f hf
        exact ⟨g, mergeAll_subset ss acc1 out h g hg, hgn, hgd⟩
      · exact ih acc1 out h s hsl f hf

theorem mergeInto_nodup (acc acc2 : List Field) (f : Field)
    (hn : NamesNodup acc) (h : mergeInto acc f = .ok acc2) :
    NamesNodup acc2 := by
  unfold mergeInto at h
  revert h
  split
  · split
    · intro h
      cases Except.ok.inj h
      exact hn
    · intro h
      cases h
  · rename_i hfind
    intro h
    cases Except.ok.inj h
    unfold NamesNodup at hn ⊢
    rw [List.map_append, List.map_singleton]
    apply List.Nodup.append hn (List.nodup_singleton _)
    intro a ha hb
    rw [List.mem_singleton] at hb
    subst hb
    obtain ⟨g, hg, hgn⟩ := List.mem_map.mp ha
    exact findField_none _ _ hfind g hg hgn

theorem mergeFields_nodup (fs : List Field) :
    ∀ acc acc2, NamesNodup acc → mergeFields acc fs = .ok acc2 →
      NamesNodup acc2 := by
  induction fs with
  | nil =>
    intro acc acc2 hn h
    cases Except.ok.inj h
    exact hn
  | cons f fs ih =>
    intro acc acc2 hn h
    unfold mergeFields at h
    revert h
    split
    · intro h
      cases h
    · rename_i acc1 heq
      intro h
      exact ih acc1 acc2 (mergeInto_nodup acc acc1 f hn heq) h

theorem mergeAll_nodup (ss : List Schema) :
    ∀ acc out, NamesNodup acc → mergeAll acc ss = .ok out →
      NamesNodup out := by
  induction ss with
  | nil =>
    intro acc out hn h
    cases Except.ok.inj h
    exact hn
  | cons s ss ih =>
    intro acc out hn h
    unfold mergeAll at h
    revert h
    split
    · intro h
      cases h
    · rename_i acc1 heq
      intro h
      exact ih acc1 out (mergeFields_nodup s.fields acc acc1 hn heq) h

theorem nodup_name_eq (l : List Field) (g1 g2 : Field)
    (hn : NamesNodup l) (h1 : g1 ∈ l) (h2 : g2 ∈ l)
    (hname : g1.name = g2.name) : g1 = g2 := by
  induction l with
  | nil => cases h1
  | cons a l ih =>
    unfold NamesNodup at hn
    rw [List.map_cons, List.nodup_cons] at hn
    rcases List.mem_cons.mp h1 with h1a | h1l <;>
      rcases List.mem_cons.mp h2 with h2a | h2l
    · rw [h1a, h2a]
    · exfalso
      have hmm : g2.name ∈ List.map Field.name l :=
        List.mem_map_of_mem Field.name h2l
      rw [← hname, h1a] at hmm
      exact hn.1 hmm
    · exfalso
      have hmm : g1.name ∈ List.map Field.name l :=
        List.mem_map_of_mem Field.name h1l
      rw [hname, h2a] at hmm
      exact hn.1 hmm
    · exact ih hn.2 h1l h2l

theorem try_merge_conflict (ss : List Schema) (s1 s2 : Schema)
    (f1 f2 : Field) (hs1 : s1 ∈ ss) (hs2 : s2 ∈ ss)
    (hf1 : f1 ∈ s1.fields) (hf2 : f2 ∈ s2.fields)
    (hname : f1.name = f2.name) (hdt : f1.dtype ≠ f2.dtype) :
    ∃ e, Schema.try_merge ss = .error e := by
  unfold Schema.try_merge
  cases hma : mergeAll [] ss with
  | error e => exact ⟨e, rfl⟩
  | ok out =>
    exfalso
    have hnod : NamesNodup out :=
      mergeAll_nodup ss [] out (by simp [NamesNodup]) hma
    obtain ⟨g1, hg1, hg1n, hg1d⟩ := mergeAll_rep ss [] out hma s1 hs1 f1 hf1
    obtain ⟨g2, hg2, hg2n, hg2d⟩ := mergeAll_rep ss [] out hma s2 hs2 f2 hf2
    have hgg : g1 = g2 :=
      nodup_name_eq out g1 g2 hnod hg1 hg2 (by rw [hg1n, hg2n, hname])
    apply hdt
    rw [← hg1d, ← hg2d, hgg]

theorem mergeInto_mem (acc : List Field) (f : Field)
    (hn : NamesNodup acc) (hf : f ∈ acc) : mergeInto acc f = .ok acc := by
  unfold mergeInto
  rw [findField_mem_nodup acc f hn hf]
  simp

theorem mergeFields_self (acc : List Field) (fs : List Field)
    (hn : NamesNodup acc) (hsub : ∀ f ∈ fs, f ∈ acc) :
    mergeFields acc fs = .ok acc := by
  induction fs with
  | nil => rfl
  | cons f fs ih =>
    unfold mergeFields
    rw [mergeInto_mem acc f hn (hsub f (List.mem_cons_self _ _))]
    exact ih (fun g hg => hsub g (List.mem_cons_of_mem f hg))

theorem mergeFields_build (fs : List Field) :
    ∀ acc, NamesNodup (acc ++ fs) → mergeFields acc fs = .ok (acc ++ fs) := by
  induction fs with
  | nil =>
    intro acc _
    simp [mergeFields]
  | cons f fs ih =>
    intro acc hn
    have hnames := hn
    unfold NamesNodup at hnames
    rw [List.map_append, List.nodup_append] at hnames
    have hnone : findField f.name acc = none := by
      apply findField_eq_none
      intro g hg hgn
      exact hnames.2.2 (List.mem_map_of_mem Field.name hg)
        (by rw [List.map_cons]; exact hgn ▸ List.mem_cons_self _ _)
    have hmi : mergeInto acc f = .ok (acc ++ [f]) := by
      unfold mergeInto
      rw [hnone]
    unfold mergeFields
    rw [hmi]
    have hassoc : (acc ++ [f]) ++ fs = acc ++ f :: fs := by simp
    have hih := ih (acc ++ [f]) (by rw [NamesNodup, hassoc]; exact hn)
    show mergeFields (acc ++ [f]) fs = Except.ok (acc ++ f :: fs)
    rw [hih, hassoc]

theorem mergeAll_const (s : Schema) (ss : List Schema)
    (hn : NamesNodup s.fields) (hall : ∀ x ∈ ss, x = s) :
    mergeAll s.fields ss = .ok s.fields := by
  induction ss with
  | nil => rfl
  | cons r ss ih =>
    have hr : r = s := hall r (List.mem_cons_self _ _)
    subst hr
    unfold mergeAll
    rw [mergeFields_self r.fields r.fields hn (fun f hf => hf)]
    exact ih (fun x hx => hall x (List.mem_cons_of_mem r hx))

theorem try_merge_const (s : Schema) (ss : List Schema)
    (hn : NamesNodup s.fields) (hne : ss ≠ [])
    (hall : ∀ x ∈ ss, x = s) : Schema.try_merge ss = .ok s := by
  obtain ⟨s0, rest, rfl⟩ := List.exists_cons_of_ne_nil hne
  have hs0 : s0 = s := hall s0 (List.mem_cons_self _ _)
  subst hs0
  have h1 : mergeFields [] s0.fields = .ok s0.fields := by
    simpa using mergeFields_build s0.fields [] (by simpa using hn)
  have h2 : mergeAll [] (s0 :: rest) = .ok s0.fields := by
    unfold mergeAll
    rw [h1]
    exact mergeAll_const s0 rest hn
      (fun x hx => hall x (List.mem_cons_of_mem s0 hx))
  unfold Schema.try_merge
  rw [h2]

theorem takeSchemas_fst_append (ps qs : List (Option Schema × List RecordBatch)) :
    (takeSchemas (ps ++ qs)).1 = (takeSchemas ps).1 ++ (takeSchemas qs).1 := by
  unfold takeSchemas
  rw [List.map_append, List.flatMap_append]

theorem takeSchemas_fst_cons (v : Option Schema × List RecordBatch)
    (ps : List (Option Schema × List RecordBatch)) :
    (takeSchemas (v :: ps)).1 = (takeStep v).1.toList ++ (takeSchemas ps).1 := by
  unfold takeSchemas
  rw [List.map_cons, List.flatMap_cons]

theorem mem_takeSchemas_fst (ps : List (Option Schema × List RecordBatch))
    (s : Schema) (bs : List RecordBatch)
    (hm : (some s, bs) ∈ ps) (hne : bs ≠ []) :
    s ∈ (takeSchemas ps).1 := by
  unfold takeSchemas
  apply List.mem_flatMap.mpr
  refine ⟨takeStep (some s, bs), List.mem_map_of_mem takeStep hm, ?_⟩
  unfold takeStep
  have : bs.isEmpty = false := by
    cases bs with
    | nil => exact absurd rfl hne
    | cons b bs => rfl
  simp [this]

theorem takeSchemas_all_empty (ps : List (Option Schema × List RecordBatch))
    (h : ∀ p ∈ ps, p.2 = []) :
    takeSchemas ps = ([], ps) := by
  induction ps with
  | nil => rfl
  | cons v ps ih =>
    have hv : v.2 = [] := h v (List.mem_cons_self _ _)
    have hstep : takeStep v = (none, v) := takeStep_of_empty v hv
    have hih := ih (fun p hp => h p (List.mem_cons_of_mem v hp))
    unfold takeSchemas at hih ⊢
    rw [List.map_cons, hstep, List.flatMap_cons, List.map_cons]
    have h1 := congrArg Prod.fst hih
    have h2 := congrArg Prod.snd hih
    simp only at h1 h2
    rw [h1, h2]
    simp [Option.toList]

theorem except_bind_eq_error {ε α β : Type} (x : Except ε α)
    (f : α → Except ε β) (e : ε)
    (h : Except.bind x f = .error e) :
    x = .error e ∨ ∃ a, x = .ok a ∧ f a = .error e := by
  cases x with
  | ok a => exact Or.inr ⟨a, rfl, h⟩
  | error e2 =>
    left
    rw [except_bind_error] at h
    rw [Except.error.inj h]

theorem resolve_error_name (t : TableSource)
    (sap : List (Option Schema × List RecordBatch)) (c : ColumnQError)
    (h : resolve_and_build t sap = .error c) : c.table = t.name := by
  unfold resolve_and_build at h
  revert h
  split
  · intro h
    obtain ⟨e, _, hc⟩ := (mapErr_error _ _ _).mp h
    rw [hc]
    rfl
  · intro h
    rcases except_bind_eq_error _ _ _ h with h1 | ⟨sch, _, h2⟩
    · obtain ⟨e, _, hc⟩ := (mapErr_error _ _ _).mp h1
      rw [hc]
      rfl
    · obtain ⟨e, _, hc⟩ := (mapErr_error _ _ _).mp h2
      rw [hc]
      rfl

theorem load_error_name (t : TableSource)
    (inputs : List (Except String (Schema × List RecordBatch)))
    (c : ColumnQError)
    (h : to_mem_table t inputs = .error c) : c.table = t.name := by
  unfold to_mem_table at h
  rcases except_bind_eq_error _ _ _ h with h1 | ⟨sap, _, h2⟩
  · obtain ⟨msg, hc⟩ := pfts_error_shape t.name inputs c h1
    rw [hc]
    rfl
  · exact resolve_error_name t sap c h2

theorem takeStep_of_nonempty (os : Option Schema) (bs : List RecordBatch)
    (h : bs ≠ []) : takeStep (os, bs) = (os, (none, bs)) := by
  unfold takeStep
  have hb : bs.isEmpty = false := by
    cases bs with
    | nil => exact absurd rfl h
    | cons b bs => rfl
  simp [hb]

theorem resolve_none_merge_error (t : TableSource)
    (sap : List (Option Schema × List RecordBatch)) (e : String)
    (hnone : t.schema = none) (herr : inferredSchema sap = .error e) :
    resolve_and_build t sap = .error (.mergeError t.name e) := by
  unfold resolve_and_build
  rw [hnone, herr]
  rfl

theorem resolve_all_empty (t : TableSource)
    (sap : List (Option Schema × List RecordBatch))
    (hnone : t.schema = none) (hall : ∀ p ∈ sap, p.2 = []) :
    resolve_and_build t sap = .ok ⟨⟨[]⟩, sap.map (fun v => v.2)⟩ := by
  have hts := takeSchemas_all_empty sap hall
  have hinf : inferredSchema sap = .ok ⟨[]⟩ := by
    unfold inferredSchema
    rw [congrArg Prod.fst hts]
    rfl
  have hcond : (sap.map (fun v => v.2)).all
      (fun p => p.all (fun b => b.schema.fields.length == (⟨[]⟩ : Schema).fields.length)) = true := by
    apply List.all_eq_true.mpr
    intro p hp
    obtain ⟨v, hv, hpv⟩ := List.mem_map.mp hp
    rw [← hpv, hall v hv]
    rfl
  have htn : MemTable.try_new ⟨[]⟩ (sap.map (fun v => v.2)) =
      .ok ⟨⟨[]⟩, sap.map (fun v => v.2)⟩ := by
    unfold MemTable.try_new
    split
    · rfl
    · rename_i hc
      exact absurd (by exact_mod_cast hcond) hc
  unfold resolve_and_build
  rw [hnone, hinf]
  show mapErr (ColumnQError.tableError t.name)
      (MemTable.try_new ⟨[]⟩ (assembled_partitions t sap)) = _
  rw [assembled_eq, htn]
  rfl

theorem pfts_cons_ok (n : String) (s : Schema) (bs : List RecordBatch)
    (rest : List (Except String (Schema × List RecordBatch))) :
    partitions_from_table_source n (.ok (s, bs) :: rest) =
      match partitions_from_table_source n rest with
      | .error e => .error e
      | .ok tl => .ok ((some s, bs) :: tl) := rfl

theorem pfts_mapSchemas (n : String) (f : Schema → Schema)
    (inputs : List (Except String (Schema × List RecordBatch))) :
    partitions_from_table_source n (mapSchemas f inputs) =
      Except.map (List.map (fun v => (v.1.map f, v.2)))
        (partitions_from_table_source n inputs) := by
  induction inputs with
  | nil => rfl
  | cons r rest ih =>
    match r with
    | .error e => rfl
    | .ok (s, bs) =>
      have hl : mapSchemas f (Except.ok (s, bs) :: rest) =
          Except.ok (f s, bs) :: mapSchemas f rest := rfl
      rw [hl, pfts_cons_ok, pfts_cons_ok, ih]
      cases partitions_from_table_source n rest with
      | error e => rfl
      | ok tl => rfl

theorem resolve_override_schema (t : TableSource) (ts : TableSchema)
    (sap : List (Option Schema × List RecordBatch)) (tbl : MemTable)
    (hov : t.schema = some ts)
    (h : resolve_and_build t sap = .ok tbl) : tbl.schema = ts.into := by
  unfold resolve_and_build at h
  rw [hov] at h
  have h2 := (mapErr_ok _ _ _).mp h
  rw [try_new_ok _ _ _ h2]

theorem override_ignores_schemas (t : TableSource) (ts : TableSchema)
    (f : Schema → Schema)
    (inputs : List (Except String (Schema × List RecordBatch)))
    (hov : t.schema = some ts) :
    to_mem_table t (mapSchemas f inputs) = to_mem_table t inputs := by
  unfold to_mem_table
  rw [pfts_mapSchemas]
  cases hp : partitions_from_table_source t.name inputs with
  | error e => rfl
  | ok sap =>
    show resolve_and_build t (sap.map (fun v => (v.1.map f, v.2))) =
      resolve_and_build t sap
    unfold resolve_and_build
    rw [hov]
    rw [assembled_eq, assembled_eq, List.map_map]
    rfl

theorem inferred_const (s : Schema) (ps : List (List RecordBatch))
    (hn : NamesNodup s.fields) (hpne : ps ≠ [])
    (hbne : ∀ bs ∈ ps, bs ≠ []) :
    inferredSchema (ps.map (fun bs => (some s, bs))) = .ok s := by
  unfold inferredSchema
  apply try_merge_const s _ hn
  · obtain ⟨bs0, rest, rfl⟩ := List.exists_cons_of_ne_nil hpne
    rw [List.map_cons, takeSchemas_fst_cons,
      takeStep_of_nonempty (some s) bs0 (hbne bs0 (List.mem_cons_self _ _))]
    simp [Option.toList]
  · intro x hx
    unfold takeSchemas at hx
    obtain ⟨p, hp, hxp⟩ := List.mem_flatMap.mp hx
    obtain ⟨w, hw, hpw⟩ := List.mem_map.mp hp
    obtain ⟨bs, hbs, hwb⟩ := List.mem_map.mp hw
    rw [← hpw, ← hwb, takeStep_of_nonempty (some s) bs (hbne bs hbs)] at hxp
    simpa [Option.toList] using hxp

instance (l : List Field) : Decidable (NamesNodup l) :=
  List.nodupDecidable _

/-! Concrete fixtures used by the witnesses, mirroring the 37-row
two-field test table of the source's test module. -/

def cityFields : List Field :=
  [⟨"name", DataType.utf8⟩, ⟨"population", DataType.int64⟩]

def citySchema : Schema := ⟨cityFields⟩

def cityBatch : RecordBatch := ⟨citySchema, 37⟩

def intASchema : Schema := ⟨[⟨"a", DataType.int64⟩]⟩

def strASchema : Schema := ⟨[⟨"a", DataType.utf8⟩]⟩

def aBatch : RecordBatch := ⟨intASchema, 1⟩

def sampleOverride : TableSchema := ⟨[⟨"x", DataType.boolean⟩]⟩

def xBatch : RecordBatch := ⟨⟨[⟨"x", DataType.boolean⟩]⟩, 1⟩

/-- Claim C1: Override precedence — when the table source carries a
user-supplied schema override, the schema of the table returned by
`to_mem_table` equals the override converted from its external
representation, and no merge or inference over partition embedded
schemas is performed: replacing every partition's embedded schema by
arbitrary (conflicting, or empty) ones leaves the result of the load
unchanged. -/
theorem override_precedence (t : TableSource) (ts : TableSchema)
    (inputs : List (Except String (Schema × List RecordBatch)))
    (f : Schema → Schema) (tbl : MemTable)
    (hov : t.schema = some ts)
    (hok : to_mem_table t inputs = .ok tbl) :
    tbl.schema = ts.into ∧
      to_mem_table t (mapSchemas f inputs) = to_mem_table t inputs := by
  constructor
  · unfold to_mem_table at hok
    obtain ⟨sap, _, h2⟩ := except_bind_eq_ok _ _ _ hok
    exact resolve_override_schema t ts sap tbl hov h2
  · exact override_ignores_schemas t ts f inputs hov

/-- Witness for C1: an override of one boolean field, over two
partitions whose embedded schemas conflict with the override and with
each other (one of them empty). -/
theorem override_precedence_witness :
    (MemTable.mk sampleOverride.into [[xBatch], []]).schema =
        sampleOverride.into ∧
      to_mem_table ⟨"cities", some sampleOverride⟩
          (mapSchemas (fun _ => ⟨[]⟩)
            [.ok (intASchema, [xBatch]), .ok (strASchema, [])]) =
        to_mem_table ⟨"cities", some sampleOverride⟩
          [.ok (intASchema, [xBatch]), .ok (strASchema, [])] :=
  override_precedence ⟨"cities", some sampleOverride⟩ sampleOverride
    [.ok (intASchema, [xBatch]), .ok (strASchema, [])] (fun _ => ⟨[]⟩)
    ⟨sampleOverride.into, [[xBatch], []]⟩ rfl rfl

/-- Claim C2: Empty-partition exclusion — with no override, a partition
whose batch sequence is empty contributes nothing to schema inference:
the schema inferred from a partition sequence containing it equals the
schema inferred with that partition removed entirely, even though it
carries a decodable schema. -/
theorem empty_partition_exclusion
    (pre post : List (Option Schema × List RecordBatch))
    (v : Option Schema × List RecordBatch) (h : v.2 = []) :
    inferredSchema (pre ++ v :: post) = inferredSchema (pre ++ post) := by
  unfold inferredSchema
  have hfst : (takeSchemas (pre ++ v :: post)).1 =
      (takeSchemas (pre ++ post)).1 := by
    rw [takeSchemas_fst_append, takeSchemas_fst_append]
    congr 1
    rw [takeSchemas_fst_cons, takeStep_of_empty v h]
    simp [Option.toList]
  rw [hfst]

/-- Witness for C2: a zero-batch partition carrying a schema that would
conflict with the other partition is excluded from inference. -/
theorem empty_partition_exclusion_witness :
    inferredSchema ([(some citySchema, [cityBatch])] ++
        ((some strASchema, ([] : List RecordBatch)) :: [])) =
      inferredSchema ([(some citySchema, [cityBatch])] ++ []) :=
  empty_partition_exclusion [(some citySchema, [cityBatch])] []
    (some strASchema, []) rfl

/-- Claim C3: Conflict detection — with no override, whenever two
non-empty partitions' embedded schemas carry homonymous fields of
incompatible types, `to_mem_table` fails with a merge-conflict error
naming the table; no table is constructed (the constructor is never
reached, as the result is the merge error itself). -/
theorem conflict_detection (t : TableSource)
    (ds : List (Schema × List RecordBatch))
    (s1 s2 : Schema) (bs1 bs2 : List RecordBatch) (f1 f2 : Field)
    (hnone : t.schema = none)
    (h1 : (s1, bs1) ∈ ds) (h2 : (s2, bs2) ∈ ds)
    (hb1 : bs1 ≠ []) (hb2 : bs2 ≠ [])
    (hf1 : f1 ∈ s1.fields) (hf2 : f2 ∈ s2.fields)
    (hname : f1.name = f2.name) (hdt : f1.dtype ≠ f2.dtype) :
    ∃ fld, to_mem_table t (ds.map Except.ok) =
      .error (.mergeError t.name fld) := by
  rw [to_mem_table_ok]
  have hm1 : ((some s1 : Option Schema), bs1) ∈
      ds.map (fun d => ((some d.1 : Option Schema), d.2)) :=
    List.mem_map_of_mem _ h1
  have hm2 : ((some s2 : Option Schema), bs2) ∈
      ds.map (fun d => ((some d.1 : Option Schema), d.2)) :=
    List.mem_map_of_mem _ h2
  obtain ⟨e, he⟩ := try_merge_conflict
    (takeSchemas (ds.map (fun d => ((some d.1 : Option Schema), d.2)))).1
    s1 s2 f1 f2
    (mem_takeSchemas_fst _ s1 bs1 hm1 hb1)
    (mem_takeSchemas_fst _ s2 bs2 hm2 hb2)
    hf1 hf2 hname hdt
  exact ⟨e, resolve_none_merge_error t _ e hnone he⟩

/-- Witness for C3: two one-batch partitions mapping field `a` to
`int64` and `utf8` respectively. -/
theorem conflict_detection_witness :
    ∃ fld, to_mem_table ⟨"cities", none⟩
        ([(intASchema, [aBatch]), (strASchema, [aBatch])].map Except.ok) =
      .error (.mergeError "cities" fld) :=
  conflict_detection ⟨"cities", none⟩
    [(intASchema, [aBatch]), (strASchema, [aBatch])]
    intASchema strASchema [aBatch] [aBatch]
    ⟨"a", DataType.int64⟩ ⟨"a", DataType.utf8⟩
    rfl (List.mem_cons_self _ _)
    (List.mem_cons_of_mem _ (List.mem_cons_self _ _))
    (List.cons_ne_nil _ _) (List.cons_ne_nil _ _)
    (List.mem_cons_self _ _) (List.mem_cons_self _ _)
    rfl (by decide)

/-- Claim C4: Order preservation — every successful load of partitions
decoded in enumeration order yields a table whose partition-major batch
structure is exactly the per-partition batch lists in that order. -/
theorem order_preservation (t : TableSource)
    (ds : List (Schema × List RecordBatch)) (tbl : MemTable)
    (h : to_mem_table t (ds.map Except.ok) = .ok tbl) :
    tbl.partitions = ds.map (fun d => d.2) :=
  load_ok_shape t ds tbl h

/-- Witness for C4: three identical one-batch partitions, as in the
source's `load_partitions` test. -/
theorem order_preservation_witness :
    (MemTable.mk citySchema [[cityBatch], [cityBatch], [cityBatch]]).partitions =
      [(citySchema, [cityBatch]), (citySchema, [cityBatch]),
        (citySchema, [cityBatch])].map (fun d => d.2) :=
  order_preservation ⟨"cities", none⟩
    [(citySchema, [cityBatch]), (citySchema, [cityBatch]),
      (citySchema, [cityBatch])]
    ⟨citySchema, [[cityBatch], [cityBatch], [cityBatch]]⟩ rfl

/-- Claim C5: Empty inference set — with no override, when every
partition has zero batches (or there are no partitions at all), the
load does not fail: inference produces the well-defined empty-field
schema and the table is built with it. -/
theorem empty_inference_set (t : TableSource)
    (ds : List (Schema × List RecordBatch))
    (hnone : t.schema = none) (hall : ∀ d ∈ ds, d.2 = []) :
    to_mem_table t (ds.map Except.ok) =
        .ok ⟨⟨[]⟩, ds.map (fun d => d.2)⟩ ∧
      inferredSchema (ds.map (fun d => ((some d.1 : Option Schema), d.2))) =
        .ok ⟨[]⟩ := by
  have hall2 : ∀ p ∈ ds.map (fun d => ((some d.1 : Option Schema), d.2)),
      p.2 = [] := by
    intro p hp
    obtain ⟨d, hd, hpd⟩ := List.mem_map.mp hp
    rw [← hpd]
    exact hall d hd
  constructor
  · rw [to_mem_table_ok, resolve_all_empty t _ hnone hall2, List.map_map]
    rfl
  · have hts := takeSchemas_all_empty _ hall2
    unfold inferredSchema
    rw [congrArg Prod.fst hts]
    rfl

/-- Witness for C5: two zero-batch partitions, both carrying (distinct)
decodable schemas; the load succeeds with the empty-field schema. -/
theorem empty_inference_set_witness :
    to_mem_table ⟨"cities", none⟩
        ([(citySchema, ([] : List RecordBatch)),
          (intASchema, ([] : List RecordBatch))].map Except.ok) =
        .ok ⟨⟨[]⟩, [(citySchema, ([] : List RecordBatch)),
          (intASchema, ([] : List RecordBatch))].map (fun d => d.2)⟩ ∧
      inferredSchema ([(citySchema, ([] : List RecordBatch)),
          (intASchema, ([] : List RecordBatch))].map
            (fun d => ((some d.1 : Option Schema), d.2))) = .ok ⟨[]⟩ :=
  empty_inference_set ⟨"cities", none⟩
    [(citySchema, []), (intASchema, [])] rfl (by decide)

/-- Claim C6: Empty-slot preservation — on a successful load the table
has exactly as many partition slots as were enumerated, and a partition
that was decoded with zero batches still occupies its original ordinal
position, as an empty batch sequence. -/
theorem empty_slot_preservation (t : TableSource)
    (ds : List (Schema × List RecordBatch)) (tbl : MemTable)
    (i : Nat) (s : Schema)
    (h : to_mem_table t (ds.map Except.ok) = .ok tbl)
    (hi : ds[i]? = some (s, ([] : List RecordBatch))) :
    tbl.partitions.length = ds.length ∧ tbl.partitions[i]? = some [] := by
  have hp := load_ok_shape t ds tbl h
  refine ⟨by rw [hp, List.length_map], ?_⟩
  rw [hp, List.getElem?_map, hi]
  rfl

/-- Witness for C6: a zero-batch partition (schema present) followed by
a 37-row partition; the empty one keeps slot 0 of 2. -/
theorem empty_slot_preservation_witness :
    (MemTable.mk citySchema [[], [cityBatch]]).partitions.length =
        [(citySchema, ([] : List RecordBatch)),
          (citySchema, [cityBatch])].length ∧
      (MemTable.mk citySchema [[], [cityBatch]]).partitions[0]? = some [] :=
  empty_slot_preservation ⟨"cities", none⟩
    [(citySchema, []), (citySchema, [cityBatch])]
    ⟨citySchema, [[], [cityBatch]]⟩ 0 citySchema rfl rfl

/-- Claim C7: Fail-fast decode errors — if any partition's byte source
fails to decode, the whole load returns a decode error naming the
table; no table is constructed and no partial recovery happens. -/
theorem fail_fast_decode (t : TableSource)
    (inputs : List (Except String (Schema × List RecordBatch)))
    (e : String) (hm : Except.error e ∈ inputs) :
    ∃ msg, to_mem_table t inputs = .error (.decodeError t.name msg) := by
  obtain ⟨msg, hmsg⟩ := pfts_error_mem t.name inputs e hm
  refine ⟨msg, ?_⟩
  unfold to_mem_table
  rw [hmsg]
  rfl

/-- Witness for C7: one good partition followed by a failing one. -/
theorem fail_fast_decode_witness :
    ∃ msg, to_mem_table ⟨"cities", none⟩
        [.ok (citySchema, [cityBatch]), .error "boom"] =
      .error (.decodeError "cities" msg) :=
  fail_fast_decode ⟨"cities", none⟩
    [.ok (citySchema, [cityBatch]), .error "boom"] "boom"
    (List.mem_cons_of_mem _ (List.mem_cons_self _ _))

/-- Claim C8: Error identification — every failure of the load (decode
error, schema-merge conflict, or table-construction rejection) is a
single failure result that carries the table's name. -/
theorem error_identification (t : TableSource)
    (inputs : List (Except String (Schema × List RecordBatch)))
    (c : ColumnQError) (h : to_mem_table t inputs = .error c) :
    c.table = t.name :=
  load_error_name t inputs c h

/-- Witness for C8: a constructor rejection (empty override schema
against a two-field batch) tagged with the table's name. -/
theorem error_identification_witness :
    (ColumnQError.tableError "cities"
        "Mismatch between schema and batches").table =
      (TableSource.mk "cities" (some ⟨[]⟩)).name :=
  error_identification ⟨"cities", some ⟨[]⟩⟩
    [.ok (citySchema, [cityBatch])]
    (.tableError "cities" "Mismatch between schema and batches") rfl

/-- Counterexample for C9 as stated: merging the one-element collection
of schemas all equal to `S`, for `S` carrying the field `a : int64`
twice, deduplicates the homonymous fields and does not return `S`
unchanged. -/
theorem merge_idempotence_cex :
    Schema.try_merge [⟨[⟨"a", DataType.int64⟩, ⟨"a", DataType.int64⟩]⟩] ≠
      Except.ok ⟨[⟨"a", DataType.int64⟩, ⟨"a", DataType.int64⟩]⟩ := by
  intro h
  have h0 : Schema.try_merge
      [⟨[⟨"a", DataType.int64⟩, ⟨"a", DataType.int64⟩]⟩] =
      Except.ok ⟨[⟨"a", DataType.int64⟩]⟩ := rfl
  rw [h0] at h
  have h2 : (⟨[⟨"a", DataType.int64⟩]⟩ : Schema) =
      ⟨[⟨"a", DataType.int64⟩, ⟨"a", DataType.int64⟩]⟩ := Except.ok.inj h
  have h3 := congrArg Schema.fields h2
  simp at h3

/-- Claim C9 (amended): for every schema `S` whose field names are
pairwise distinct, merging any non-empty collection of schemas all
equal to `S` succeeds and yields `S` unchanged; consequently a
no-override inference over non-empty partitions that all embed `S`
infers exactly `S`. -/
theorem merge_idempotence_amended (s : Schema) (ss : List Schema)
    (ps : List (List RecordBatch))
    (hn : NamesNodup s.fields)
    (hne : ss ≠ []) (hall : ∀ x ∈ ss, x = s)
    (hpne : ps ≠ []) (hbne : ∀ bs ∈ ps, bs ≠ []) :
    Schema.try_merge ss = .ok s ∧
      inferredSchema (ps.map (fun bs => ((some s : Option Schema), bs))) =
        .ok s :=
  ⟨try_merge_const s ss hn hne hall, inferred_const s ps hn hpne hbne⟩

/-- Witness for C9 (amended): the two-field city schema, merged as a
two-element identical collection, and inferred from one 37-row
partition. -/
theorem merge_idempotence_witness :
    Schema.try_merge [citySchema, citySchema] = .ok citySchema ∧
      inferredSchema ([[cityBatch]].map
          (fun bs => ((some citySchema : Option Schema), bs))) =
        .ok citySchema :=
  merge_idempotence_amended citySchema [citySchema, citySchema]
    [[cityBatch]] (by decide) (by decide) (by decide) (by decide)
    (by decide)

/-- Claim C10: Batch-frame preservation — the inference pass consumes
each non-empty partition's schema slot in place, but in both the
override path and the inference path the partition-major batch lists
handed to the table constructor are exactly the batch sequences the
decode produced, unchanged in content and order. -/
theorem batch_frame_preservation (t : TableSource)
    (sap : List (Option Schema × List RecordBatch)) :
    assembled_partitions t sap = sap.map (fun v => v.2) ∧
      (sap.map takeStep).map (fun p => p.2.2) = sap.map (fun v => v.2) := by
  refine ⟨assembled_eq t sap, ?_⟩
  rw [List.map_map]
  simp [Function.comp, takeStep_snd_snd]

end ArrowIpcFile
